import Mathlib

/-!
Shallow embedding of the rule-matching and action-execution engine of the
`organize` file-management tool (source: `src/organize/cli.py`, functions
`all_pathes`, `find_jobs` and `execute_rules`).

Modelling conventions:

* Paths are strings.  The filesystem is part of an explicit environment
  `Env`: `Env.fs` maps a directory path to the list of its direct child
  entries (or to an error when the enumeration raises), and `Env.resolve`
  models `pathlib.Path.resolve()` (absolute, symlink-free form).
* `Path(folder).expanduser()` is modelled by `expanduser`, and
  `Path(dir).glob('*.*')` by `glob`: the fnmatch pattern `*.*` accepts
  exactly the names that contain a dot, for files and directories alike,
  one level deep.  A Python generator is modelled by the list of the
  values it yields.
* Filters and actions are records of functions.  Python exceptions are
  modelled with `Except Err`: any call that raises returns `.error e` and
  the engine, which has no `try` block anywhere, propagates the error and
  stops.  `Err.indexError` is the `IndexError` raised by `x[0]` on an
  empty list (the helper `first` inside `execute_rules`).
* The engine is instrumented: `execute_rules` returns the trace of the
  capability invocations it performed (`parse` calls and `run` calls with
  their exact arguments, in order) together with the final outcome.  The
  engine itself has no channel whatsoever to mutate the filesystem: the
  environment is read-only and the only effects are the recorded
  delegated calls.
-/

namespace Organize

/-- Python exceptions, as values: `indexError` models the `IndexError`
raised by an out-of-bounds list access, and `userError n` stands for any
exception raised inside a user-supplied filter, action or filesystem
operation. -/
inductive Err where
  | indexError : Err
  | userError : Nat → Err
deriving DecidableEq

instance instDecEqExcept {ε α : Type} [DecidableEq ε] [DecidableEq α] :
    DecidableEq (Except ε α) := fun a b =>
  match a, b with
  | .error e1, .error e2 =>
    if h : e1 = e2 then .isTrue (h ▸ rfl)
    else .isFalse (fun hh => h (Except.error.inj hh))
  | .error _, .ok _ => .isFalse (fun hh => Except.noConfusion hh)
  | .ok _, .error _ => .isFalse (fun hh => Except.noConfusion hh)
  | .ok v1, .ok v2 =>
    if h : v1 = v2 then .isTrue (h ▸ rfl)
    else .isFalse (fun hh => h (Except.ok.inj hh))

/-- The attribute bundle returned by a filter's `parse`: an opaque mapping
from attribute name to value. -/
abbrev Attrs := List (String × String)

/-- A filter capability: `matches(path) -> bool` and
`parse(path) -> AttributeBundle`, either of which may raise. -/
structure Filter where
  «matches» : String → Except Err Bool
  parse : String → Except Err Attrs

/-- An action capability: `run(path, file_attributes, simulate)` returns an
optional new path, and may raise. -/
structure Action where
  run : String → Attrs → Bool → Except Err (Option String)

/-- A rule from the configuration: folders to scan, a filter list and an
action list. -/
structure Rule where
  folders : List String
  filters : List Filter
  actions : List Action

/-- The `Job` namedtuple of `find_jobs`: `Job(path, filters, actions)`. -/
structure Job where
  path : String
  filters : List Filter
  actions : List Action

/-- A direct child entry of a directory: its name and whether it is itself
a directory. -/
structure FSEntry where
  name : String
  isDir : Bool
deriving DecidableEq

/-- The read-only environment: the user's home directory (for `~`
expansion), the directory-listing function backing `glob`, and the
path-resolution function backing `Path.resolve()`. -/
structure Env where
  home : String
  fs : String → Except Err (List FSEntry)
  resolve : String → String

/-- A name matches the fnmatch pattern `*.*` exactly when it contains a
dot (files and directories alike; hidden names included). -/
def nameHasDot (s : String) : Bool :=
  s.data.any (fun c => c == '.')

/-- Model of `Path(s).expanduser()`: a leading `~` component is replaced
by the home directory; all other paths are unchanged. -/
def expanduser (home : String) (s : String) : String :=
  match s.data with
  | '~' :: rest =>
    if rest = [] ∨ rest.head? = some '/' then String.mk (home.data ++ rest) else s
  | _ => s

/-- Joining a directory path and a child name with a separator. -/
def joinPath (dir name : String) : String :=
  String.mk (dir.data ++ '/' :: name.data)

/-- Model of `Path(dir).glob('*.*')`: the direct child entries of `dir`
whose name contains a dot, as full paths, in listing order.  The listing
itself may raise. -/
def glob (env : Env) (dir : String) : Except Err (List String) :=
  match env.fs dir with
  | .error e => .error e
  | .ok entries =>
    .ok ((entries.filter (fun e => nameHasDot e.name)).map
      (fun e => joinPath dir e.name))

/-- Model of `all_pathes(rule)`: for each folder of the rule, yield the `glob`
results of the user-home-expanded folder. -/
def all_pathes (env : Env) : List String → Except Err (List String)
  | [] => .ok []
  | folder :: rest =>
    match glob env (expanduser env.home folder) with
    | .error e => .error e
    | .ok ps =>
      match all_pathes env rest with
      | .error e => .error e
      | .ok more => .ok (ps ++ more)

/-- Model of `all(f.matches(path) for f in filters)`: left-to-right, short-circuit
conjunction; an exception from a `matches` call propagates. -/
def allMatches (filters : List Filter) (p : String) : Except Err Bool :=
  match filters with
  | [] => .ok true
  | f :: fs =>
    match f.«matches» p with
    | .error e => .error e
    | .ok b => if b then allMatches fs p else .ok false

/-- The inner loop body of `find_jobs` for one rule: keep the candidate
paths on which every filter matches, materializing each as a `Job` with
the rule's filters and actions. -/
def matchedJobs (r : Rule) : List String → Except Err (List Job)
  | [] => .ok []
  | p :: rest =>
    match allMatches r.filters p with
    | .error e => .error e
    | .ok b =>
      match matchedJobs r rest with
      | .error e => .error e
      | .ok more => .ok (if b then ⟨p, r.filters, r.actions⟩ :: more else more)

/-- The jobs one rule contributes: its enumerated candidates, filtered. -/
def ruleJobs (env : Env) (r : Rule) : Except Err (List Job) :=
  match all_pathes env r.folders with
  | .error e => .error e
  | .ok cands => matchedJobs r cands

/-- The unsorted `result` list of `find_jobs`: the concatenation of every
rule's jobs, in rule order. -/
def collectJobs (env : Env) : List Rule → Except Err (List Job)
  | [] => .ok []
  | r :: rest =>
    match ruleJobs env r with
    | .error e => .error e
    | .ok js =>
      match collectJobs env rest with
      | .error e => .error e
      | .ok more => .ok (js ++ more)

/-- Code-point lexicographic comparison of character lists: the
comparison Python applies to the string form of the sort keys. -/
def charListLe : List Char → List Char → Bool
  | [], _ => true
  | _ :: _, [] => false
  | c :: cs, d :: ds =>
    if c.toNat < d.toNat then true
    else if d.toNat < c.toNat then false
    else charListLe cs ds

/-- The sort key comparison of `sorted(result, key=lambda j: j.path)`:
lexicographic path order. -/
def jobLe (a b : Job) : Bool :=
  charListLe a.path.data b.path.data

/-- Model of `find_jobs(rules)`: collect each rule's matching jobs and return the
whole list sorted by path. -/
def find_jobs (env : Env) (rules : List Rule) : Except Err (List Job) :=
  match collectJobs env rules with
  | .error e => .error e
  | .ok result => .ok (result.mergeSort jobLe)

/-- Trace record of one `parse` invocation: which job (by index in the
sorted job list), which filter of that job's filter list, and the path
argument. -/
structure ParseRec where
  jobIdx : Nat
  filterIdx : Nat
  path : String
deriving DecidableEq

/-- Trace record of one `action.run` invocation: which job, which action
of that job's chain, and the exact arguments and outcome. -/
structure RunRec where
  jobIdx : Nat
  actionIdx : Nat
  path : String
  attrs : Attrs
  simulate : Bool
  result : Except Err (Option String)
deriving DecidableEq

/-- The next value of `current_path` after a `run` call: a returned path
replaces it, a returned `None` leaves it unchanged. -/
def nextPath (cur : String) (res : Except Err (Option String)) : String :=
  match res with
  | .ok (some p) => p
  | _ => cur

/-- The inner action loop of `execute_rules`: invoke each action in order
on the current path, replace the current path when a new one is returned,
and stop at the first exception.  Returns the run-call trace and either
the final current path or the propagated error. -/
def runActions (jobIdx : Nat) (attrs : Attrs) (simulate : Bool) :
    List Action → Nat → String → List RunRec × Except Err String
  | [], _, cur => ([], .ok cur)
  | a :: rest, i, cur =>
    match a.run cur attrs simulate with
    | .error e => ([⟨jobIdx, i, cur, attrs, simulate, .error e⟩], .error e)
    | .ok newPath =>
      let t := runActions jobIdx attrs simulate rest (i + 1) (nextPath cur (.ok newPath))
      (⟨jobIdx, i, cur, attrs, simulate, .ok newPath⟩ :: t.1, t.2)

/-- Outcome of processing one job: the `parse` calls made, the `run`
calls made, and either the final current path or the propagated error. -/
structure JobResult where
  parseCalls : List ParseRec
  runCalls : List RunRec
  result : Except Err String

/-- The per-job body of `execute_rules`: `first(job.filters)` raises
`IndexError` on an empty filter list; otherwise `parse` is invoked on the
first filter with the job's path, the job's path is resolved, and the
action chain runs on the resolved path. -/
def execJob (env : Env) (simulate : Bool) (jobIdx : Nat) (job : Job) :
    JobResult :=
  match job.filters.head? with
  | none => ⟨[], [], .error .indexError⟩
  | some f =>
    match f.parse job.path with
    | .error e => ⟨[⟨jobIdx, 0, job.path⟩], [], .error e⟩
    | .ok attrs =>
      let t := runActions jobIdx attrs simulate job.actions 0 (env.resolve job.path)
      ⟨[⟨jobIdx, 0, job.path⟩], t.1, t.2⟩

/-- The job loop of `execute_rules`: process the sorted jobs in order and
stop at the first exception, which propagates. -/
def execJobs (env : Env) (simulate : Bool) :
    List Job → Nat → List ParseRec × List RunRec × Option Err
  | [], _ => ([], [], none)
  | job :: rest, i =>
    let jr := execJob env simulate i job
    match jr.result with
    | .error e => (jr.parseCalls, jr.runCalls, some e)
    | .ok _ =>
      let t := execJobs env simulate rest (i + 1)
      (jr.parseCalls ++ t.1, jr.runCalls ++ t.2.1, t.2.2)

/-- The observable outcome of `execute_rules`: whether the
`Nothing to do.` notice was printed, the full invocation trace, and the
propagated error, if any. -/
structure ExecResult where
  printedNothing : Bool
  parseCalls : List ParseRec
  runCalls : List RunRec
  error : Option Err

/-- Model of `execute_rules(rules, simulate)`: find the jobs (a raise propagates
before anything is printed or invoked); print the notice when the list is
empty; otherwise process every job in order. -/
def execute_rules (env : Env) (rules : List Rule) (simulate : Bool) :
    ExecResult :=
  match find_jobs env rules with
  | .error e => ⟨false, [], [], some e⟩
  | .ok jobs =>
    if jobs.isEmpty then ⟨true, [], [], none⟩
    else
      let t := execJobs env simulate jobs 0
      ⟨false, t.1, t.2.1, t.2.2⟩

/-- A filter that matches nothing (used to state the conjunction law's
always-false replacement property). -/
def alwaysFalseFilter : Filter :=
  ⟨fun _ => .ok false, fun _ => .ok []⟩

/-- A run-call record with its simulate flag erased (used to compare the
traces of a simulated and a real run). -/
def stripSim (rc : RunRec) : RunRec :=
  ⟨rc.jobIdx, rc.actionIdx, rc.path, rc.attrs, false, rc.result⟩

/-- All actions of the given rules return the same value for both values
of the simulate flag (the contract §4.2(4) imposes on action variants). -/
def SimIndep (rules : List Rule) : Prop :=
  ∀ r ∈ rules, ∀ a ∈ r.actions, ∀ p b, a.run p b true = a.run p b false

/-- The run-call trace is correctly chained starting from `cur`: each
record's path argument is the previous record's returned path if any,
otherwise the previous record's own path argument. -/
inductive Chained : String → List RunRec → Prop where
  | nil : ∀ cur, Chained cur []
  | cons : ∀ cur rc rest, rc.path = cur →
      Chained (nextPath cur rc.result) rest → Chained cur (rc :: rest)

/-! Concrete sample data used by the closed witness theorems below. -/

/-- A sample environment: `/d` holds two dot-named files and one
extensionless file; resolution prefixes `/r`. -/
def envA : Env :=
  ⟨"/home/u",
   fun dir =>
     if dir = "/d" then
       .ok [⟨"a.txt", false⟩, ⟨"b.jpg", false⟩, ⟨"noext", false⟩]
     else .ok [],
   fun p => "/r" ++ p⟩

/-- A sample environment whose only child of `/d` is a directory with a
dotted name. -/
def envDir : Env :=
  ⟨"/home/u",
   fun dir => if dir = "/d" then .ok [⟨"pics.d", true⟩] else .ok [],
   fun p => p⟩

/-- A filter matching exactly the path `/d/a.txt`. -/
def filterA : Filter :=
  ⟨fun p => .ok (p == "/d/a.txt"), fun p => .ok [("pathA", p)]⟩

/-- A filter matching every path, with a distinguishable `parse`. -/
def filterAll : Filter :=
  ⟨fun _ => .ok true, fun p => .ok [("all", p)]⟩

/-- An action replacing the current path by `/moved/a.txt`. -/
def actionMove : Action := ⟨fun _ _ _ => .ok (some "/moved/a.txt")⟩

/-- An action returning nothing (the current path stays unchanged). -/
def actionNoop : Action := ⟨fun _ _ _ => .ok none⟩

/-- An action replacing the current path by `/p3`. -/
def actionP3 : Action := ⟨fun _ _ _ => .ok (some "/p3")⟩

/-- An action that raises. -/
def actionFail : Action := ⟨fun _ _ _ => .error (.userError 7)⟩

/-- A rule matching only `/d/a.txt`, then moving it and running a no-op. -/
def ruleA : Rule := ⟨["/d"], [filterA], [actionMove, actionNoop]⟩

/-- A second rule matching only `/d/a.txt`, with its own action list. -/
def ruleB : Rule := ⟨["/d"], [filterA], [actionNoop]⟩

/-- A rule whose single action raises. -/
def ruleFail : Rule := ⟨["/d"], [filterA], [actionFail]⟩

/-- A rule declaring no folders at all. -/
def ruleNoFolders : Rule := ⟨[], [filterA], [actionMove]⟩

/-- A rule with an empty filter list. -/
def ruleNoFilters : Rule := ⟨["/d"], [], [actionNoop]⟩

/-- A three-action job exercising the path-chaining contract. -/
def jobChain : Job := ⟨"/d/a.txt", [filterA], [actionMove, actionNoop, actionP3]⟩

/-- An environment whose directory listing always raises. -/
def envErr : Env :=
  ⟨"/home/u", fun _ => .error (.userError 3), fun p => p⟩

/-- The short-circuit conjunction succeeds with `true` exactly when every
filter's `matches` succeeds with `true`. -/
theorem allMatches_ok_true_iff (fl : List Filter) (p : String) :
    allMatches fl p = .ok true ↔ ∀ f ∈ fl, f.«matches» p = .ok true := by
  induction fl with
  | nil => simp [allMatches]
  | cons f fs ih =>
    simp only [allMatches]
    cases hm : f.«matches» p with
    | error e => simp [hm]
    | ok b =>
      cases b with
      | true => simpa [hm] using ih
      | false => simp [hm]

/-- Inversion of one step of the per-rule matching loop. -/
theorem matchedJobs_cons_ok {r : Rule} {p : String} {rest : List String}
    {js : List Job} :
    matchedJobs r (p :: rest) = .ok js ↔
      ∃ b more, allMatches r.filters p = .ok b ∧ matchedJobs r rest = .ok more ∧
        js = (if b then (⟨p, r.filters, r.actions⟩ : Job) :: more else more) := by
  simp only [matchedJobs]
  cases allMatches r.filters p with
  | error e => simp
  | ok b =>
    cases matchedJobs r rest with
    | error e => simp
    | ok more => simp [eq_comm]

/-- Membership in the job list one rule contributes, in terms of the
candidate paths and the filter conjunction. -/
theorem matchedJobs_ok_mem {r : Rule} {cands : List String} {js : List Job}
    (h : matchedJobs r cands = .ok js) (j : Job) :
    j ∈ js ↔ ∃ p ∈ cands, allMatches r.filters p = .ok true ∧
      j = ⟨p, r.filters, r.actions⟩ := by
  induction cands generalizing js with
  | nil =>
    simp only [matchedJobs, Except.ok.injEq] at h
    subst h; simp
  | cons p rest ih =>
    rcases matchedJobs_cons_ok.mp h with ⟨b, more, hm, hrest, rfl⟩
    cases b with
    | true =>
      rw [if_pos rfl]
      constructor
      · intro hj
        rcases List.mem_cons.mp hj with rfl | hj
        · exact ⟨p, List.mem_cons_self p rest, hm, rfl⟩
        · rcases (ih hrest).mp hj with ⟨q, hq, hqm, rfl⟩
          exact ⟨q, List.mem_cons_of_mem p hq, hqm, rfl⟩
      · rintro ⟨q, hq, hqm, rfl⟩
        rcases List.mem_cons.mp hq with rfl | hq
        · exact List.mem_cons_self _ _
        · exact List.mem_cons_of_mem _ ((ih hrest).mpr ⟨q, hq, hqm, rfl⟩)
    | false =>
      rw [if_neg Bool.false_ne_true]
      constructor
      · intro hj
        rcases (ih hrest).mp hj with ⟨q, hq, hqm, rfl⟩
        exact ⟨q, List.mem_cons_of_mem p hq, hqm, rfl⟩
      · rintro ⟨q, hq, hqm, rfl⟩
        rcases List.mem_cons.mp hq with rfl | hq
        · rw [hm] at hqm
          exact absurd hqm (by simp)
        · exact (ih hrest).mpr ⟨q, hq, hqm, rfl⟩

/-- Every job a rule contributes carries exactly that rule's filter and
action lists. -/
theorem matchedJobs_ok_shape {r : Rule} {cands : List String} {js : List Job}
    (h : matchedJobs r cands = .ok js) :
    ∀ j ∈ js, j.filters = r.filters ∧ j.actions = r.actions := by
  intro j hj
  rcases (matchedJobs_ok_mem h j).mp hj with ⟨p, _, _, rfl⟩
  exact ⟨rfl, rfl⟩

/-- With an empty filter list the conjunction is vacuously true, so every
candidate path is materialized as a job. -/
theorem matchedJobs_nil_filters {r : Rule} (hf : r.filters = [])
    (cands : List String) :
    matchedJobs r cands =
      .ok (cands.map (fun p => ⟨p, r.filters, r.actions⟩)) := by
  induction cands with
  | nil => simp [matchedJobs]
  | cons p rest ih => simp [matchedJobs, hf, allMatches, ih]

/-- Inversion of a successful `glob`. -/
theorem glob_ok_iff {env : Env} {dir : String} {ps : List String} :
    glob env dir = .ok ps ↔ ∃ entries, env.fs dir = .ok entries ∧
      ps = (entries.filter (fun e => nameHasDot e.name)).map
        (fun e => joinPath dir e.name) := by
  simp only [glob]
  cases env.fs dir with
  | error e => simp
  | ok entries => simp [eq_comm]

/-- Inversion of one step of the candidate enumeration. -/
theorem all_pathes_cons_ok {env : Env} {fo : String} {rest : List String}
    {cands : List String} :
    all_pathes env (fo :: rest) = .ok cands ↔
      ∃ ps more, glob env (expanduser env.home fo) = .ok ps ∧
        all_pathes env rest = .ok more ∧ cands = ps ++ more := by
  simp only [all_pathes]
  cases glob env (expanduser env.home fo) with
  | error e => simp
  | ok ps =>
    cases all_pathes env rest with
    | error e => simp
    | ok more => simp [eq_comm]

/-- Membership in the enumerated candidate list: exactly the dot-named
direct children of the user-home-expanded declared folders, one level
deep, whether files or directories. -/
theorem all_pathes_mem {env : Env} {folders : List String}
    {cands : List String} (h : all_pathes env folders = .ok cands)
    (p : String) :
    p ∈ cands ↔ ∃ fo ∈ folders, ∃ entries,
      env.fs (expanduser env.home fo) = .ok entries ∧
      ∃ ent ∈ entries, nameHasDot ent.name = true ∧
        p = joinPath (expanduser env.home fo) ent.name := by
  induction folders generalizing cands with
  | nil =>
    simp only [all_pathes, Except.ok.injEq] at h
    subst h; simp
  | cons fo rest ih =>
    rcases all_pathes_cons_ok.mp h with ⟨ps, more, hg, hrest, rfl⟩
    rcases glob_ok_iff.mp hg with ⟨entries, hfs, rfl⟩
    constructor
    · intro hp
      rcases List.mem_append.mp hp with hp | hp
      · rcases List.mem_map.mp hp with ⟨ent, hent, rfl⟩
        rcases List.mem_filter.mp hent with ⟨hent2, hdot⟩
        exact ⟨fo, List.mem_cons_self fo rest, entries, hfs, ent, hent2, hdot,
          rfl⟩
      · rcases (ih hrest).mp hp with ⟨fo2, hfo2, entries2, hfs2, ent, hent,
          hdot, hp2⟩
        exact ⟨fo2, List.mem_cons_of_mem fo hfo2, entries2, hfs2, ent, hent,
          hdot, hp2⟩
    · rintro ⟨fo2, hfo2, entries2, hfs2, ent, hent, hdot, rfl⟩
      rcases List.mem_cons.mp hfo2 with rfl | hfo2
      · rw [hfs] at hfs2
        obtain rfl := Except.ok.inj hfs2
        exact List.mem_append.mpr (Or.inl (List.mem_map.mpr
          ⟨ent, List.mem_filter.mpr ⟨hent, hdot⟩, rfl⟩))
      · exact List.mem_append.mpr (Or.inr ((ih hrest).mpr
          ⟨fo2, hfo2, entries2, hfs2, ent, hent, hdot, rfl⟩))

/-- Inversion of a successful per-rule job computation. -/
theorem ruleJobs_ok_iff {env : Env} {r : Rule} {js : List Job} :
    ruleJobs env r = .ok js ↔
      ∃ cands, all_pathes env r.folders = .ok cands ∧
        matchedJobs r cands = .ok js := by
  simp only [ruleJobs]
  cases all_pathes env r.folders with
  | error e => simp
  | ok cands => simp

/-- Inversion of one step of the rule collection loop. -/
theorem collectJobs_cons_ok {env : Env} {r : Rule} {rest : List Rule}
    {l : List Job} :
    collectJobs env (r :: rest) = .ok l ↔
      ∃ js more, ruleJobs env r = .ok js ∧ collectJobs env rest = .ok more ∧
        l = js ++ more := by
  simp only [collectJobs]
  cases ruleJobs env r with
  | error e => simp
  | ok js =>
    cases collectJobs env rest with
    | error e => simp
    | ok more => simp [eq_comm]

/-- Decomposing the unsorted collection over an append of rule lists. -/
theorem collectJobs_append_ok {env : Env} {xs ys : List Rule} {l : List Job} :
    collectJobs env (xs ++ ys) = .ok l ↔
      ∃ l1 l2, collectJobs env xs = .ok l1 ∧ collectJobs env ys = .ok l2 ∧
        l = l1 ++ l2 := by
  induction xs generalizing l with
  | nil => simp [collectJobs]
  | cons r rest ih =>
    rw [List.cons_append]
    constructor
    · intro h
      rcases collectJobs_cons_ok.mp h with ⟨js, more, hr, hrest, rfl⟩
      rcases ih.mp hrest with ⟨l1, l2, h1, h2, rfl⟩
      exact ⟨js ++ l1, l2, collectJobs_cons_ok.mpr ⟨js, l1, hr, h1, rfl⟩, h2,
        by simp⟩
    · rintro ⟨l1, l2, h1, h2, rfl⟩
      rcases collectJobs_cons_ok.mp h1 with ⟨js, more, hr, hrest, rfl⟩
      exact collectJobs_cons_ok.mpr ⟨js, more ++ l2, hr,
        ih.mpr ⟨more, l2, hrest, h2, rfl⟩, by simp⟩

/-- Membership in the unsorted collection, in terms of the contributing
rule. -/
theorem collectJobs_ok_mem {env : Env} {rules : List Rule} {l : List Job}
    (h : collectJobs env rules = .ok l) (j : Job) :
    j ∈ l ↔ ∃ r ∈ rules, ∃ js, ruleJobs env r = .ok js ∧ j ∈ js := by
  induction rules generalizing l with
  | nil =>
    simp only [collectJobs, Except.ok.injEq] at h
    subst h; simp
  | cons r rest ih =>
    rcases collectJobs_cons_ok.mp h with ⟨js, more, hr, hrest, rfl⟩
    constructor
    · intro hj
      rcases List.mem_append.mp hj with hj | hj
      · exact ⟨r, List.mem_cons_self r rest, js, hr, hj⟩
      · rcases (ih hrest).mp hj with ⟨r2, hr2, js2, hjs2, hj2⟩
        exact ⟨r2, List.mem_cons_of_mem r hr2, js2, hjs2, hj2⟩
    · rintro ⟨r2, hr2, js2, hjs2, hj2⟩
      rcases List.mem_cons.mp hr2 with rfl | hr2
      · rw [hr] at hjs2
        obtain rfl := Except.ok.inj hjs2
        exact List.mem_append.mpr (Or.inl hj2)
      · exact List.mem_append.mpr (Or.inr ((ih hrest).mpr
          ⟨r2, hr2, js2, hjs2, hj2⟩))

/-- The lexicographic comparison is total. -/
theorem charListLe_total : ∀ xs ys, charListLe xs ys || charListLe ys xs := by
  intro xs
  induction xs with
  | nil => intro ys; simp [charListLe]
  | cons c cs ih =>
    intro ys
    cases ys with
    | nil => simp [charListLe]
    | cons d ds =>
      simp only [charListLe]
      by_cases h1 : c.toNat < d.toNat
      · simp [h1]
      · by_cases h2 : d.toNat < c.toNat
        · simp [h1, h2]
        · simpa [h1, h2] using ih ds

/-- The lexicographic comparison is transitive. -/
theorem charListLe_trans :
    ∀ xs ys zs, charListLe xs ys → charListLe ys zs → charListLe xs zs := by
  intro xs
  induction xs with
  | nil => intro ys zs _ _; simp [charListLe]
  | cons c cs ih =>
    intro ys zs h1 h2
    cases ys with
    | nil => simp [charListLe] at h1
    | cons d ds =>
      cases zs with
      | nil => simp [charListLe] at h2
      | cons e es =>
        simp only [charListLe] at h1 h2 ⊢
        by_cases hcd : c.toNat < d.toNat
        · by_cases hde : d.toNat < e.toNat
          · simp [show c.toNat < e.toNat from Nat.lt_trans hcd hde]
          · by_cases hed : e.toNat < d.toNat
            · simp [hde, hed] at h2
            · simp [show c.toNat < e.toNat from by omega]
        · by_cases hdc : d.toNat < c.toNat
          · simp [hcd, hdc] at h1
          · by_cases hde : d.toNat < e.toNat
            · simp [show c.toNat < e.toNat from by omega]
            · by_cases hed : e.toNat < d.toNat
              · simp [hde, hed] at h2
              · rw [if_neg hcd, if_neg hdc] at h1
                rw [if_neg hde, if_neg hed] at h2
                rw [if_neg (show ¬ c.toNat < e.toNat from by omega),
                  if_neg (show ¬ e.toNat < c.toNat from by omega)]
                exact ih ds es h1 h2

/-- The job comparison is transitive. -/
theorem jobLe_trans : ∀ a b c : Job, jobLe a b → jobLe b c → jobLe a c := by
  intro a b c hab hbc
  exact charListLe_trans a.path.data b.path.data c.path.data hab hbc

/-- The job comparison is total. -/
theorem jobLe_total : ∀ a b : Job, jobLe a b || jobLe b a := by
  intro a b
  exact charListLe_total a.path.data b.path.data

/-- A successful `find_jobs` returns the sorted permutation of the
unsorted collection. -/
theorem find_jobs_ok_iff {env : Env} {rules : List Rule} {jobs : List Job} :
    find_jobs env rules = .ok jobs ↔
      ∃ l, collectJobs env rules = .ok l ∧ jobs = l.mergeSort jobLe := by
  simp only [find_jobs]
  cases collectJobs env rules with
  | error e => simp
  | ok l => simp [eq_comm]

/-- The job list returned by a successful `find_jobs` is sorted by path. -/
theorem find_jobs_sorted {env : Env} {rules : List Rule} {jobs : List Job}
    (h : find_jobs env rules = .ok jobs) :
    jobs.Pairwise (fun a b => jobLe a b = true) := by
  rcases find_jobs_ok_iff.mp h with ⟨l, _, rfl⟩
  exact List.sorted_mergeSort jobLe_trans jobLe_total l

/-- Membership in a successful `find_jobs` result coincides with
membership in the unsorted collection. -/
theorem find_jobs_ok_mem {env : Env} {rules : List Rule} {jobs : List Job}
    {l : List Job} (h : find_jobs env rules = .ok jobs)
    (hc : collectJobs env rules = .ok l) (j : Job) :
    j ∈ jobs ↔ j ∈ l := by
  rcases find_jobs_ok_iff.mp h with ⟨l2, hc2, rfl⟩
  rw [hc] at hc2; cases hc2
  simp only [List.mem_mergeSort]

/-- Every recorded run call of one job's chain carries the job index,
attribute bundle and simulate flag it was invoked with. -/
theorem runActions_mem_fields (jI : Nat) (attrs : Attrs) (s : Bool) :
    ∀ (acts : List Action) (i : Nat) (cur : String),
      ∀ rc ∈ (runActions jI attrs s acts i cur).1,
        rc.jobIdx = jI ∧ rc.attrs = attrs ∧ rc.simulate = s := by
  intro acts
  induction acts with
  | nil =>
    intro i cur rc hrc
    simp [runActions] at hrc
  | cons a rest ih =>
    intro i cur rc hrc
    simp only [runActions] at hrc
    cases h : a.run cur attrs s with
    | error e =>
      rw [h] at hrc
      simp only [List.mem_singleton] at hrc
      subst hrc
      exact ⟨rfl, rfl, rfl⟩
    | ok newPath =>
      rw [h] at hrc
      simp only [List.mem_cons] at hrc
      rcases hrc with rfl | hrc
      · exact ⟨rfl, rfl, rfl⟩
      · exact ih (i + 1) (nextPath cur (.ok newPath)) rc hrc

/-- The run-call trace of one job's chain is correctly path-chained
starting from the given current path. -/
theorem runActions_chained (jI : Nat) (attrs : Attrs) (s : Bool) :
    ∀ (acts : List Action) (i : Nat) (cur : String),
      Chained cur (runActions jI attrs s acts i cur).1 := by
  intro acts
  induction acts with
  | nil => intro i cur; exact Chained.nil cur
  | cons a rest ih =>
    intro i cur
    simp only [runActions]
    cases h : a.run cur attrs s with
    | error e => exact Chained.cons _ _ _ rfl (Chained.nil _)
    | ok newPath => exact Chained.cons _ _ _ rfl (ih (i + 1) _)

/-- On success the chain visited every action, every recorded call
succeeded, and the returned final path is the fold of the recorded
replacements over the starting path. -/
theorem runActions_ok_spec (jI : Nat) (attrs : Attrs) (s : Bool) :
    ∀ (acts : List Action) (i : Nat) (cur : String) (final : String),
      (runActions jI attrs s acts i cur).2 = .ok final →
        (∀ rc ∈ (runActions jI attrs s acts i cur).1, ∃ v, rc.result = .ok v)
        ∧ (runActions jI attrs s acts i cur).1.length = acts.length
        ∧ final = (runActions jI attrs s acts i cur).1.foldl
            (fun c r => nextPath c r.result) cur := by
  intro acts
  induction acts with
  | nil =>
    intro i cur final h
    simp only [runActions] at h ⊢
    refine ⟨by simp, rfl, ?_⟩
    simpa using (Except.ok.inj h).symm
  | cons a rest ih =>
    intro i cur final h
    simp only [runActions] at h ⊢
    cases hr : a.run cur attrs s with
    | error e =>
      rw [hr] at h
      exact absurd h (by simp)
    | ok newPath =>
      rw [hr] at h
      rcases ih (i + 1) (nextPath cur (.ok newPath)) final h with
        ⟨hall, hlen, hfold⟩
      refine ⟨?_, by simp [hlen], ?_⟩
      · intro rc hrc
        rcases List.mem_cons.mp hrc with rfl | hrc
        · exact ⟨newPath, rfl⟩
        · exact hall rc hrc
      · rw [List.foldl_cons]
        exact hfold

/-- A failing run call is the last recorded call of its chain and its
error is the chain's outcome. -/
theorem runActions_error_last (jI : Nat) (attrs : Attrs) (s : Bool) :
    ∀ (acts : List Action) (i : Nat) (cur : String) (rc : RunRec) (e : Err),
      rc ∈ (runActions jI attrs s acts i cur).1 → rc.result = .error e →
        (runActions jI attrs s acts i cur).1.getLast? = some rc
        ∧ (runActions jI attrs s acts i cur).2 = .error e := by
  intro acts
  induction acts with
  | nil =>
    intro i cur rc e hrc _
    simp [runActions] at hrc
  | cons a rest ih =>
    intro i cur rc e hrc herr
    cases hr : a.run cur attrs s with
    | error e2 =>
      simp only [runActions, hr, List.mem_singleton] at hrc
      subst hrc
      obtain rfl := Except.error.inj herr
      simp [runActions, hr]
    | ok newPath =>
      simp only [runActions, hr, List.mem_cons] at hrc
      rcases hrc with rfl | hrc
      · exact absurd herr (by simp)
      · rcases ih (i + 1) (nextPath cur (.ok newPath)) rc e hrc herr with
          ⟨hlast, herr2⟩
        simp only [runActions, hr]
        refine ⟨?_, herr2⟩
        cases ht : (runActions jI attrs s rest (i + 1)
            (nextPath cur (.ok newPath))).1 with
        | nil => rw [ht] at hlast; simp at hlast
        | cons x xs =>
          rw [ht] at hlast
          rw [List.getLast?_cons_cons]
          exact hlast

/-- Processing a job with an empty filter list raises `IndexError` in the
`first(job.filters)` access, before any `parse` or `run` call. -/
theorem execJob_filters_nil {env : Env} {s : Bool} {i : Nat} {job : Job}
    (h : job.filters = []) :
    execJob env s i job = ⟨[], [], .error .indexError⟩ := by
  simp [execJob, h]

/-- The parse trace of one job: empty when the filter list is empty
(the `IndexError` case), otherwise exactly one `parse` call, on filter
index `0` with the job's raw path. -/
theorem execJob_parseCalls_eq (env : Env) (s : Bool) (i : Nat) (job : Job) :
    (execJob env s i job).parseCalls =
      if job.filters.isEmpty then [] else [⟨i, 0, job.path⟩] := by
  cases hf : job.filters.head? with
  | none =>
    have h : job.filters = [] := List.head?_eq_none_iff.mp hf
    simp [execJob, hf, h]
  | some f =>
    have hne : job.filters.isEmpty = false := by
      cases hjf : job.filters with
      | nil => rw [hjf] at hf; simp at hf
      | cons x xs => rfl
    cases hp : f.parse job.path with
    | error e => simp [execJob, hf, hp, hne]
    | ok attrs => simp [execJob, hf, hp, hne]

/-- Every run call of one job's processing carries the job index, the
simulate flag, and the attribute bundle produced by `parse` on the first
filter applied to the job's raw path. -/
theorem execJob_run_mem (env : Env) (s : Bool) (i : Nat) (job : Job) :
    ∀ rc ∈ (execJob env s i job).runCalls,
      rc.jobIdx = i ∧ rc.simulate = s ∧
      ∃ f, job.filters.head? = some f ∧ f.parse job.path = .ok rc.attrs := by
  intro rc hrc
  cases hf : job.filters.head? with
  | none => simp [execJob, hf] at hrc
  | some f =>
    cases hp : f.parse job.path with
    | error e => simp [execJob, hf, hp] at hrc
    | ok attrs =>
      simp only [execJob, hf, hp] at hrc
      rcases runActions_mem_fields i attrs s job.actions 0
        (env.resolve job.path) rc hrc with ⟨h1, h2, h3⟩
      refine ⟨h1, h3, f, rfl, ?_⟩
      rw [h2]
      exact hp

/-- A failing run call is the last run call its job records, and its
error is the job's outcome. -/
theorem execJob_error_last (env : Env) (s : Bool) (i : Nat) (job : Job)
    (rc : RunRec) (e : Err) (hrc : rc ∈ (execJob env s i job).runCalls)
    (herr : rc.result = .error e) :
    (execJob env s i job).runCalls.getLast? = some rc ∧
      (execJob env s i job).result = .error e := by
  cases hf : job.filters.head? with
  | none => simp [execJob, hf] at hrc
  | some f =>
    cases hp : f.parse job.path with
    | error e2 => simp [execJob, hf, hp] at hrc
    | ok attrs =>
      simp only [execJob, hf, hp] at hrc ⊢
      exact runActions_error_last i attrs s job.actions 0
        (env.resolve job.path) rc e hrc herr

/-- On a successful job every recorded run call succeeded. -/
theorem execJob_ok_runCalls (env : Env) (s : Bool) (i : Nat) (job : Job)
    (v : String) (h : (execJob env s i job).result = .ok v) :
    ∀ rc ∈ (execJob env s i job).runCalls, ∃ w, rc.result = .ok w := by
  cases hf : job.filters.head? with
  | none => simp [execJob, hf] at h
  | some f =>
    cases hp : f.parse job.path with
    | error e => simp [execJob, hf, hp] at h
    | ok attrs =>
      simp only [execJob, hf, hp] at h ⊢
      exact (runActions_ok_spec i attrs s job.actions 0
        (env.resolve job.path) v h).1

/-- Every parse record of one job's processing is the single first-filter
call on the job's raw path. -/
theorem execJob_parse_mem (env : Env) (s : Bool) (i : Nat) (job : Job) :
    ∀ pc ∈ (execJob env s i job).parseCalls, pc = ⟨i, 0, job.path⟩ := by
  intro pc hpc
  rw [execJob_parseCalls_eq] at hpc
  by_cases hje : job.filters.isEmpty = true
  · rw [if_pos hje] at hpc
    simp at hpc
  · rw [if_neg hje] at hpc
    simpa using hpc

/-- A job that completes successfully made exactly one parse call. -/
theorem execJob_ok_parseCalls (env : Env) (s : Bool) (i : Nat) (job : Job)
    (v : String) (h : (execJob env s i job).result = .ok v) :
    (execJob env s i job).parseCalls = [⟨i, 0, job.path⟩] := by
  cases hf : job.filters.head? with
  | none => simp [execJob, hf] at h
  | some f =>
    cases hp : f.parse job.path with
    | error e => simp [execJob, hf, hp] at h
    | ok attrs => simp [execJob, hf, hp]

/-- Every parse record of the job loop is a first-filter call on the raw
path of the job at its recorded (offset) index. -/
theorem execJobs_parse_mem (env : Env) (s : Bool) :
    ∀ (jobs : List Job) (i : Nat),
      ∀ pc ∈ (execJobs env s jobs i).1, pc.filterIdx = 0 ∧
        ∃ k job, jobs.get? k = some job ∧ pc.jobIdx = i + k ∧
          pc.path = job.path := by
  intro jobs
  induction jobs with
  | nil => intro i pc hpc; simp [execJobs] at hpc
  | cons job rest ih =>
    intro i pc hpc
    cases hres : (execJob env s i job).result with
    | error e =>
      simp only [execJobs, hres] at hpc
      obtain rfl := execJob_parse_mem env s i job pc hpc
      exact ⟨rfl, 0, job, rfl, by simp, rfl⟩
    | ok v =>
      simp only [execJobs, hres, List.mem_append] at hpc
      rcases hpc with hpc | hpc
      · obtain rfl := execJob_parse_mem env s i job pc hpc
        exact ⟨rfl, 0, job, rfl, by simp, rfl⟩
      · rcases ih (i + 1) pc hpc with ⟨h0, k, job2, hk, hidx, hpath⟩
        exact ⟨h0, k + 1, job2, by simpa using hk, by omega, hpath⟩

/-- Every run record of the job loop carries the simulate flag it was
invoked with and the attribute bundle parsed from the first filter of the
job at its recorded (offset) index. -/
theorem execJobs_run_mem (env : Env) (s : Bool) :
    ∀ (jobs : List Job) (i : Nat),
      ∀ rc ∈ (execJobs env s jobs i).2.1, rc.simulate = s ∧
        ∃ k job f, jobs.get? k = some job ∧ rc.jobIdx = i + k ∧
          job.filters.head? = some f ∧ f.parse job.path = .ok rc.attrs := by
  intro jobs
  induction jobs with
  | nil => intro i rc hrc; simp [execJobs] at hrc
  | cons job rest ih =>
    intro i rc hrc
    cases hres : (execJob env s i job).result with
    | error e =>
      simp only [execJobs, hres] at hrc
      rcases execJob_run_mem env s i job rc hrc with ⟨h1, h2, f, hf, hp⟩
      exact ⟨h2, 0, job, f, rfl, by omega, hf, hp⟩
    | ok v =>
      simp only [execJobs, hres, List.mem_append] at hrc
      rcases hrc with hrc | hrc
      · rcases execJob_run_mem env s i job rc hrc with ⟨h1, h2, f, hf, hp⟩
        exact ⟨h2, 0, job, f, rfl, by omega, hf, hp⟩
      · rcases ih (i + 1) rc hrc with ⟨h1, k, job2, f, hk, hidx, hf, hp⟩
        exact ⟨h1, k + 1, job2, f, by simpa using hk, by omega, hf, hp⟩

/-- When the job loop runs to completion without an exception it made
exactly one parse call per job. -/
theorem execJobs_noerr_parse_len (env : Env) (s : Bool) :
    ∀ (jobs : List Job) (i : Nat),
      (execJobs env s jobs i).2.2 = none →
        (execJobs env s jobs i).1.length = jobs.length := by
  intro jobs
  induction jobs with
  | nil => intro i _; rfl
  | cons job rest ih =>
    intro i h
    cases hres : (execJob env s i job).result with
    | error e =>
      rw [show (execJobs env s (job :: rest) i).2.2 =
        some e from by simp only [execJobs, hres]] at h
      exact absurd h (by simp)
    | ok v =>
      simp only [execJobs, hres] at h ⊢
      rw [List.length_append, execJob_ok_parseCalls env s i job v hres,
        ih (i + 1) h]
      simp [Nat.add_comm]

/-- A failing run call is the last run call of the whole execution, its
error is the loop's outcome, and no parse call of a later job exists. -/
theorem execJobs_error_last (env : Env) (s : Bool) :
    ∀ (jobs : List Job) (i : Nat) (rc : RunRec) (e : Err),
      rc ∈ (execJobs env s jobs i).2.1 → rc.result = .error e →
        (execJobs env s jobs i).2.1.getLast? = some rc
        ∧ (execJobs env s jobs i).2.2 = some e
        ∧ ∀ pc ∈ (execJobs env s jobs i).1, pc.jobIdx ≤ rc.jobIdx := by
  intro jobs
  induction jobs with
  | nil => intro i rc e hrc _; simp [execJobs] at hrc
  | cons job rest ih =>
    intro i rc e hrc herr
    cases hres : (execJob env s i job).result with
    | error e2 =>
      simp only [execJobs, hres] at hrc ⊢
      rcases execJob_error_last env s i job rc e hrc herr with ⟨hlast, hres2⟩
      rw [hres] at hres2
      obtain rfl := Except.error.inj hres2
      refine ⟨hlast, rfl, ?_⟩
      intro pc hpc
      obtain rfl := execJob_parse_mem env s i job pc hpc
      rcases execJob_run_mem env s i job rc hrc with ⟨hidx, -, -⟩
      show i ≤ rc.jobIdx
      omega
    | ok v =>
      simp only [execJobs, hres, List.mem_append] at hrc ⊢
      rcases hrc with hrc | hrc
      · rcases execJob_ok_runCalls env s i job v hres rc hrc with ⟨w, hw⟩
        rw [hw] at herr
        exact absurd herr (by simp)
      · rcases ih (i + 1) rc e hrc herr with ⟨hlast, herr2, hbound⟩
        have hne : (execJobs env s rest (i + 1)).2.1 ≠ [] := by
          intro hnil
          rw [hnil] at hrc
          simp at hrc
        refine ⟨?_, herr2, ?_⟩
        · rw [List.getLast?_append_of_ne_nil _ hne]
          exact hlast
        · intro pc hpc
          rcases hpc with hpc | hpc
          · obtain rfl := execJob_parse_mem env s i job pc hpc
            rcases execJobs_run_mem env s rest (i + 1) rc hrc with
              ⟨-, k, -, -, -, hidx, -⟩
            show i ≤ rc.jobIdx
            omega
          · exact hbound pc hpc

/-- With simulate-independent actions, the chains recorded for the two
flag values coincide up to the recorded flag, with the same outcome. -/
theorem runActions_simIndep (jI : Nat) (attrs : Attrs) :
    ∀ (acts : List Action),
      (∀ a ∈ acts, ∀ p b, a.run p b true = a.run p b false) →
      ∀ (i : Nat) (cur : String),
        (runActions jI attrs true acts i cur).1.map stripSim =
          (runActions jI attrs false acts i cur).1.map stripSim
        ∧ (runActions jI attrs true acts i cur).2 =
            (runActions jI attrs false acts i cur).2 := by
  intro acts
  induction acts with
  | nil => intro _ i cur; exact ⟨rfl, rfl⟩
  | cons a rest ih =>
    intro hsim i cur
    have ha := hsim a (List.mem_cons_self a rest)
    have hrest := fun a2 h2 => hsim a2 (List.mem_cons_of_mem a h2)
    cases hr : a.run cur attrs false with
    | error e =>
      have ht : a.run cur attrs true = .error e := by rw [ha cur attrs]; exact hr
      simp [runActions, hr, ht, stripSim]
    | ok newPath =>
      have ht : a.run cur attrs true = .ok newPath := by rw [ha cur attrs]; exact hr
      rcases ih hrest (i + 1) (nextPath cur (.ok newPath)) with ⟨h1, h2⟩
      simp only [runActions, hr, ht, List.map_cons]
      refine ⟨?_, h2⟩
      rw [h1]
      simp [stripSim]

/-- With simulate-independent actions, processing one job for the two
flag values makes the same calls (up to the recorded flag) and produces
the same outcome. -/
theorem execJob_simIndep (env : Env) (i : Nat) (job : Job)
    (hsim : ∀ a ∈ job.actions, ∀ p b, a.run p b true = a.run p b false) :
    (execJob env true i job).parseCalls = (execJob env false i job).parseCalls
    ∧ (execJob env true i job).runCalls.map stripSim =
        (execJob env false i job).runCalls.map stripSim
    ∧ (execJob env true i job).result = (execJob env false i job).result := by
  cases hf : job.filters.head? with
  | none => simp [execJob, hf]
  | some f =>
    cases hp : f.parse job.path with
    | error e => simp [execJob, hf, hp]
    | ok attrs =>
      rcases runActions_simIndep i attrs job.actions hsim 0
        (env.resolve job.path) with ⟨h1, h2⟩
      refine ⟨?_, ?_, ?_⟩
      · simp [execJob, hf, hp]
      · simpa [execJob, hf, hp] using h1
      · simpa [execJob, hf, hp] using h2

/-- Unfolding one failing step of the job loop. -/
theorem execJobs_cons_error {env : Env} {s : Bool} {job : Job}
    {rest : List Job} {i : Nat} {e : Err}
    (h : (execJob env s i job).result = .error e) :
    execJobs env s (job :: rest) i =
      ((execJob env s i job).parseCalls, (execJob env s i job).runCalls,
        some e) := by
  simp only [execJobs, h]

/-- Unfolding one successful step of the job loop. -/
theorem execJobs_cons_okStep {env : Env} {s : Bool} {job : Job}
    {rest : List Job} {i : Nat} {v : String}
    (h : (execJob env s i job).result = .ok v) :
    execJobs env s (job :: rest) i =
      ((execJob env s i job).parseCalls ++ (execJobs env s rest (i + 1)).1,
        (execJob env s i job).runCalls ++ (execJobs env s rest (i + 1)).2.1,
        (execJobs env s rest (i + 1)).2.2) := by
  simp only [execJobs, h]

/-- With simulate-independent actions of the given jobs, the two runs of
the job loop make the same calls (up to the recorded flag) and produce
the same outcome. -/
theorem execJobs_simIndep (env : Env) :
    ∀ (jobs : List Job) (i : Nat),
      (∀ job ∈ jobs, ∀ a ∈ job.actions, ∀ p b,
          a.run p b true = a.run p b false) →
        (execJobs env true jobs i).1 = (execJobs env false jobs i).1
        ∧ (execJobs env true jobs i).2.1.map stripSim =
            (execJobs env false jobs i).2.1.map stripSim
        ∧ (execJobs env true jobs i).2.2 = (execJobs env false jobs i).2.2 := by
  intro jobs
  induction jobs with
  | nil => intro i _; exact ⟨rfl, rfl, rfl⟩
  | cons job rest ih =>
    intro i hsim
    have hjob := hsim job (List.mem_cons_self job rest)
    have hrest := fun j2 h2 => hsim j2 (List.mem_cons_of_mem job h2)
    rcases execJob_simIndep env i job hjob with ⟨h1, h2, h3⟩
    cases hres : (execJob env false i job).result with
    | error e =>
      have hrt : (execJob env true i job).result = .error e := by
        rw [h3]; exact hres
      rw [execJobs_cons_error hres, execJobs_cons_error hrt]
      exact ⟨h1, h2, rfl⟩
    | ok v =>
      have hrt : (execJob env true i job).result = .ok v := by
        rw [h3]; exact hres
      rcases ih (i + 1) hrest with ⟨g1, g2, g3⟩
      rw [execJobs_cons_okStep hres, execJobs_cons_okStep hrt]
      refine ⟨by rw [h1, g1], ?_, g3⟩
      show List.map stripSim (_ ++ _) = List.map stripSim (_ ++ _)
      rw [List.map_append, List.map_append, h2, g2]

/-- A raise inside `find_jobs` propagates: nothing is printed and no
capability call is made. -/
theorem execute_rules_find_error {env : Env} {rules : List Rule} {s : Bool}
    {e : Err} (h : find_jobs env rules = .error e) :
    execute_rules env rules s = ⟨false, [], [], some e⟩ := by
  simp [execute_rules, h]

/-- With no jobs, only the notice is printed and no capability call is
made. -/
theorem execute_rules_empty {env : Env} {rules : List Rule} {s : Bool}
    (h : find_jobs env rules = .ok []) :
    execute_rules env rules s = ⟨true, [], [], none⟩ := by
  simp [execute_rules, h]

/-- With a nonempty job list the loop's trace is the result and no notice
is printed. -/
theorem execute_rules_run {env : Env} {rules : List Rule} {s : Bool}
    {jobs : List Job} (h : find_jobs env rules = .ok jobs)
    (hne : jobs ≠ []) :
    execute_rules env rules s =
      ⟨false, (execJobs env s jobs 0).1, (execJobs env s jobs 0).2.1,
        (execJobs env s jobs 0).2.2⟩ := by
  cases jobs with
  | nil => exact absurd rfl hne
  | cons j rest => simp [execute_rules, h]

/-- Every job of a successful `find_jobs` carries the action list of one
of the given rules. -/
theorem find_jobs_actions_from_rules {env : Env} {rules : List Rule}
    {jobs : List Job} (h : find_jobs env rules = .ok jobs) :
    ∀ job ∈ jobs, ∃ r ∈ rules, job.actions = r.actions := by
  intro job hjob
  rcases find_jobs_ok_iff.mp h with ⟨l, hc, rfl⟩
  rcases (collectJobs_ok_mem hc job).mp (List.mem_mergeSort.mp hjob) with
    ⟨r, hr, js, hjs, hjmem⟩
  rcases ruleJobs_ok_iff.mp hjs with ⟨cands, hcands, hmj⟩
  exact ⟨r, hr, (matchedJobs_ok_shape hmj job hjmem).2⟩

/-- C1: for every rule, a Job is materialized for a candidate path
exactly when every filter of the rule's filter list succeeds with `true`
on it (conjunction over the whole list); every materialized job carries
exactly the rule's filters and actions; and replacing any single filter
of the rule by an always-false filter leaves the rule with no jobs at
all. -/
theorem claim1_conjunction_law :
    (∀ (env : Env) (r : Rule) (cands : List String) (js : List Job),
        all_pathes env r.folders = .ok cands →
        matchedJobs r cands = .ok js →
        (∀ p, (∃ j ∈ js, j.path = p) ↔
            (p ∈ cands ∧ ∀ f ∈ r.filters, f.«matches» p = .ok true))
        ∧ ∀ j ∈ js, j.filters = r.filters ∧ j.actions = r.actions)
    ∧ (∀ (env : Env) (r : Rule) (i : Nat) (js : List Job),
        i < r.filters.length →
        ruleJobs env ⟨r.folders, r.filters.set i alwaysFalseFilter, r.actions⟩
          = .ok js →
        js = []) := by
  constructor
  · intro env r cands js _ hm
    refine ⟨?_, matchedJobs_ok_shape hm⟩
    intro p
    constructor
    · rintro ⟨j, hj, rfl⟩
      rcases (matchedJobs_ok_mem hm j).mp hj with ⟨q, hq, hall, rfl⟩
      exact ⟨hq, (allMatches_ok_true_iff r.filters q).mp hall⟩
    · rintro ⟨hp, hall⟩
      exact ⟨⟨p, r.filters, r.actions⟩,
        (matchedJobs_ok_mem hm _).mpr
          ⟨p, hp, (allMatches_ok_true_iff r.filters p).mpr hall, rfl⟩, rfl⟩
  · intro env r i js hi h
    rcases ruleJobs_ok_iff.mp h with ⟨cands, _, hm⟩
    cases js with
    | nil => rfl
    | cons j js0 =>
      exfalso
      rcases (matchedJobs_ok_mem hm j).mp (List.mem_cons_self j js0) with
        ⟨p, _, hall, rfl⟩
      have hmem : alwaysFalseFilter ∈ r.filters.set i alwaysFalseFilter :=
        List.mem_set r.filters i hi alwaysFalseFilter
      have hoops := (allMatches_ok_true_iff _ p).mp hall alwaysFalseFilter hmem
      simp [alwaysFalseFilter] at hoops

/-- C1 witness: in the sample environment, the rule matching `/d/a.txt`
materializes a job for that path, and setting its only filter to the
always-false filter yields no jobs. -/
theorem claim1_witness :
    (∃ j ∈ [(⟨"/d/a.txt", ruleA.filters, ruleA.actions⟩ : Job)],
        j.path = "/d/a.txt")
    ∧ ([] : List Job) = [] :=
  ⟨((claim1_conjunction_law.1 envA ruleA ["/d/a.txt", "/d/b.jpg"]
        [⟨"/d/a.txt", ruleA.filters, ruleA.actions⟩] rfl rfl).1
        "/d/a.txt").mpr
      ⟨by simp, by
        intro f hf
        rw [show f = filterA by simpa [ruleA] using hf]
        rfl⟩,
   claim1_conjunction_law.2 envA ruleA 0 [] (by simp [ruleA]) rfl⟩

/-- C2: processing one job, the run-call trace is chained starting from
the environment's resolution of the job's path (so a returned path
replaces the current path for the next action and a `none` leaves it
unchanged), the first run call receives exactly the resolved path, and
on success the job's final path is the fold of the recorded replacements
over the resolved path. -/
theorem claim2_path_chaining (env : Env) (s : Bool) (i : Nat) (job : Job) :
    Chained (env.resolve job.path) (execJob env s i job).runCalls
    ∧ (∀ rc, (execJob env s i job).runCalls.head? = some rc →
        rc.path = env.resolve job.path)
    ∧ (∀ final, (execJob env s i job).result = .ok final →
        final = (execJob env s i job).runCalls.foldl
          (fun c r => nextPath c r.result) (env.resolve job.path)) := by
  have hch : Chained (env.resolve job.path) (execJob env s i job).runCalls := by
    cases hf : job.filters.head? with
    | none =>
      rw [execJob_filters_nil (List.head?_eq_none_iff.mp hf)]
      exact Chained.nil _
    | some f =>
      cases hp : f.parse job.path with
      | error e =>
        simp only [execJob, hf, hp]
        exact Chained.nil _
      | ok attrs =>
        simp only [execJob, hf, hp]
        exact runActions_chained i attrs s job.actions 0 (env.resolve job.path)
  refine ⟨hch, ?_, ?_⟩
  · intro rc hrc
    cases hl : (execJob env s i job).runCalls with
    | nil => rw [hl] at hrc; exact absurd hrc (by simp)
    | cons x xs =>
      rw [hl] at hrc hch
      obtain rfl : x = rc := by simpa using hrc
      cases hch with
      | cons _ _ _ hpath _ => exact hpath
  · intro final hfin
    cases hf : job.filters.head? with
    | none =>
      rw [execJob_filters_nil (List.head?_eq_none_iff.mp hf)] at hfin
      exact absurd hfin (by simp)
    | some f =>
      cases hp : f.parse job.path with
      | error e =>
        simp only [execJob, hf, hp] at hfin
        exact absurd hfin (by simp)
      | ok attrs =>
        simp only [execJob, hf, hp] at hfin ⊢
        exact (runActions_ok_spec i attrs s job.actions 0
          (env.resolve job.path) final hfin).2.2

/-- C2 witness: on the three-action chain `move`, `noop`, `p3`, the final
path is the fold of the replacements, and the first run call received
the resolved starting path. -/
theorem claim2_witness :
    "/p3" = (execJob envA true 0 jobChain).runCalls.foldl
        (fun c r => nextPath c r.result) (envA.resolve jobChain.path)
    ∧ (⟨0, 0, "/r/d/a.txt", [("pathA", "/d/a.txt")], true,
        .ok (some "/moved/a.txt")⟩ : RunRec).path
      = envA.resolve jobChain.path :=
  ⟨(claim2_path_chaining envA true 0 jobChain).2.2 "/p3" rfl,
   (claim2_path_chaining envA true 0 jobChain).2.1 _ rfl⟩

/-- C3: for every environment and every sequence of rules (hence
regardless of the order the rules are given in), a successful `find_jobs`
returns a job sequence sorted by path. -/
theorem claim3_sorted_output (env : Env) (rules : List Rule)
    (jobs : List Job) (h : find_jobs env rules = .ok jobs) :
    jobs.Pairwise (fun a b => jobLe a b = true) :=
  find_jobs_sorted h

/-- C3 witness: the sample run returns its single job, a sorted list. -/
theorem claim3_witness :
    ([(⟨"/d/a.txt", ruleA.filters, ruleA.actions⟩ : Job)]).Pairwise
      (fun a b => jobLe a b = true) :=
  claim3_sorted_output envA [ruleA] _ (by
    simp only [find_jobs, show collectJobs envA [ruleA] =
      .ok [⟨"/d/a.txt", ruleA.filters, ruleA.actions⟩] from rfl]
    rw [List.mergeSort_singleton])

/-- C5 counterexample: the claim says job discovery enumerates files only
(no directory entries among the candidates), but the sole child of `/d`
here is a directory named `pics.d`, and enumeration yields it as a
candidate. -/
theorem claim5_counterexample :
    envDir.fs "/d" = .ok [⟨"pics.d", true⟩]
    ∧ (⟨"pics.d", true⟩ : FSEntry).isDir = true
    ∧ all_pathes envDir ["/d"] = .ok ["/d/pics.d"] :=
  ⟨rfl, rfl, rfl⟩

/-- C5 (amended): for every rule, job discovery enumerates, for each
declared folder after user-home expansion, exactly the direct child
entries of that folder whose name contains a dot — one level deep, no
recursion into subdirectories — whether the entry is a file or a
directory. -/
theorem claim5_amended_enumeration (env : Env) (folders : List String)
    (cands : List String) (h : all_pathes env folders = .ok cands)
    (p : String) :
    p ∈ cands ↔ ∃ fo ∈ folders, ∃ entries,
      env.fs (expanduser env.home fo) = .ok entries ∧
      ∃ ent ∈ entries, nameHasDot ent.name = true ∧
        p = joinPath (expanduser env.home fo) ent.name :=
  all_pathes_mem h p

/-- C5 witness: the directory entry `pics.d` of `/d` appears among the
enumerated candidates. -/
theorem claim5_witness : "/d/pics.d" ∈ ["/d/pics.d"] :=
  (claim5_amended_enumeration envDir ["/d"] ["/d/pics.d"] rfl
      "/d/pics.d").mpr
    ⟨"/d", by simp, [⟨"pics.d", true⟩], rfl, ⟨"pics.d", true⟩, by simp,
      rfl, rfl⟩

/-- C7: whenever `find_jobs` returns the empty sequence, `execute_rules`
prints the `Nothing to do.` notice and returns with no parse call, no
run call and no error. -/
theorem claim7_nothing_to_do (env : Env) (rules : List Rule) (s : Bool)
    (h : find_jobs env rules = .ok []) :
    execute_rules env rules s = ⟨true, [], [], none⟩ :=
  execute_rules_empty h

/-- C7 witness: a rule with no folders yields no jobs and only the
notice. -/
theorem claim7_witness :
    execute_rules envA [ruleNoFolders] true = ⟨true, [], [], none⟩ :=
  claim7_nothing_to_do envA [ruleNoFolders] true (by
    simp only [find_jobs,
      show collectJobs envA [ruleNoFolders] = .ok [] from rfl]
    rw [List.mergeSort_nil])

/-- C10: with an empty filter list the conjunction is vacuously true so
every candidate becomes a job; executing such a job raises `IndexError`
in the `first(job.filters)` access before any `parse` or `run` call;
that out-of-bounds branch is taken exactly when the job's filter list is
empty; and when the first sorted job has no filters the whole execution
aborts with `IndexError` after no calls at all. -/
theorem claim10_first_filter_indexError :
    (∀ (r : Rule) (cands : List String), r.filters = [] →
        matchedJobs r cands =
          .ok (cands.map (fun p => ⟨p, r.filters, r.actions⟩)))
    ∧ (∀ (env : Env) (s : Bool) (i : Nat) (job : Job), job.filters = [] →
        execJob env s i job = ⟨[], [], .error .indexError⟩)
    ∧ (∀ (env : Env) (s : Bool) (i : Nat) (job : Job),
        ((execJob env s i job).result = .error .indexError ∧
          (execJob env s i job).parseCalls = []) ↔ job.filters = [])
    ∧ (∀ (env : Env) (rules : List Rule) (s : Bool) (job : Job)
        (rest : List Job), find_jobs env rules = .ok (job :: rest) →
        job.filters = [] →
        execute_rules env rules s = ⟨false, [], [], some .indexError⟩) := by
  refine ⟨fun r cands h => matchedJobs_nil_filters h cands, ?_, ?_, ?_⟩
  · intro env s i job h
    exact execJob_filters_nil h
  · intro env s i job
    constructor
    · rintro ⟨_, hpc⟩
      rw [execJob_parseCalls_eq] at hpc
      cases hjf : job.filters with
      | nil => rfl
      | cons x xs =>
        rw [hjf] at hpc
        simp at hpc
    · intro h
      rw [execJob_filters_nil h]
      exact ⟨rfl, rfl⟩
  · intro env rules s job rest hfind hf
    have hej : execJob env s 0 job = ⟨[], [], .error .indexError⟩ :=
      execJob_filters_nil hf
    have hres : (execJob env s 0 job).result = .error .indexError := by
      rw [hej]
    rw [execute_rules_run hfind (by simp), execJobs_cons_error hres, hej]

/-- C10 witness: in the sample environment the no-filter rule turns both
dot-named candidates into jobs, and executing them aborts immediately
with `IndexError` and an empty call trace. -/
theorem claim10_witness :
    matchedJobs ruleNoFilters ["/d/a.txt", "/d/b.jpg"] =
      .ok [⟨"/d/a.txt", ruleNoFilters.filters, ruleNoFilters.actions⟩,
           ⟨"/d/b.jpg", ruleNoFilters.filters, ruleNoFilters.actions⟩]
    ∧ execute_rules envA [ruleNoFilters] true =
        ⟨false, [], [], some .indexError⟩ :=
  ⟨claim10_first_filter_indexError.1 ruleNoFilters
      ["/d/a.txt", "/d/b.jpg"] rfl,
   claim10_first_filter_indexError.2.2.2 envA [ruleNoFilters] true
     ⟨"/d/a.txt", ruleNoFilters.filters, ruleNoFilters.actions⟩
     [⟨"/d/b.jpg", ruleNoFilters.filters, ruleNoFilters.actions⟩]
     (by
       simp only [find_jobs, show collectJobs envA [ruleNoFilters] =
         .ok [⟨"/d/a.txt", ruleNoFilters.filters, ruleNoFilters.actions⟩,
              ⟨"/d/b.jpg", ruleNoFilters.filters, ruleNoFilters.actions⟩]
         from rfl]
       rw [List.mergeSort_of_sorted (by decide)])
     rfl⟩

/-- C4: in every execution, every recorded `parse` call is on filter
index 0 — the first filter of its job — with the job's raw path (so no
other filter's `parse` is ever invoked), and the attribute bundle handed
to every `run` call is exactly the `parse` output of the first filter of
that call's job; no merging of bundles across filters can occur. -/
theorem claim4_attribute_bundle (env : Env) (rules : List Rule) (s : Bool)
    (jobs : List Job) (hj : find_jobs env rules = .ok jobs) :
    (∀ pc ∈ (execute_rules env rules s).parseCalls, pc.filterIdx = 0 ∧
        ∃ job, jobs.get? pc.jobIdx = some job ∧ pc.path = job.path)
    ∧ (∀ rc ∈ (execute_rules env rules s).runCalls,
        ∃ job f, jobs.get? rc.jobIdx = some job ∧
          job.filters.head? = some f ∧
          f.parse job.path = .ok rc.attrs) := by
  cases jobs with
  | nil =>
    rw [execute_rules_empty hj]
    exact ⟨fun pc hpc => absurd hpc (by simp),
           fun rc hrc => absurd hrc (by simp)⟩
  | cons j rest =>
    rw [execute_rules_run hj (by simp)]
    constructor
    · intro pc hpc
      rcases execJobs_parse_mem env s (j :: rest) 0 pc hpc with
        ⟨h0, k, job, hk, hidx, hpath⟩
      refine ⟨h0, job, ?_, hpath⟩
      rw [hidx]
      simpa using hk
    · intro rc hrc
      rcases execJobs_run_mem env s (j :: rest) 0 rc hrc with
        ⟨_, k, job, f, hk, hidx, hf, hp⟩
      refine ⟨job, f, ?_, hf, hp⟩
      rw [hidx]
      simpa using hk

/-- C4 witness: the single parse call of the sample run is a first-filter
call with the job's raw path. -/
theorem claim4_witness :
    (⟨0, 0, "/d/a.txt"⟩ : ParseRec).filterIdx = 0
    ∧ ∃ job, ([(⟨"/d/a.txt", ruleA.filters, ruleA.actions⟩ : Job)]).get?
        (⟨0, 0, "/d/a.txt"⟩ : ParseRec).jobIdx = some job
      ∧ (⟨0, 0, "/d/a.txt"⟩ : ParseRec).path = job.path := by
  have hfind : find_jobs envA [ruleA] =
      .ok [⟨"/d/a.txt", ruleA.filters, ruleA.actions⟩] := by
    simp only [find_jobs, show collectJobs envA [ruleA] =
      .ok [⟨"/d/a.txt", ruleA.filters, ruleA.actions⟩] from rfl]
    rw [List.mergeSort_singleton]
  exact (claim4_attribute_bundle envA [ruleA] true _ hfind).1
    ⟨0, 0, "/d/a.txt"⟩
    (by rw [execute_rules_run hfind (by simp)]; decide)

/-- C6: the exact simulate flag of the invocation is passed to every run
call; and with actions whose returned value does not depend on the flag
(the contract §4.2 imposes on action variants), the simulated and real
runs print the same notice, make the same parse calls, make the same run
calls up to the recorded flag, and end identically — the engine itself
touches no filesystem: its only outputs are the recorded delegated
calls. -/
theorem claim6_simulate_flag (env : Env) (rules : List Rule) :
    (∀ s : Bool, ∀ rc ∈ (execute_rules env rules s).runCalls,
        rc.simulate = s)
    ∧ (SimIndep rules →
        (execute_rules env rules true).printedNothing =
          (execute_rules env rules false).printedNothing
        ∧ (execute_rules env rules true).parseCalls =
            (execute_rules env rules false).parseCalls
        ∧ (execute_rules env rules true).runCalls.map stripSim =
            (execute_rules env rules false).runCalls.map stripSim
        ∧ (execute_rules env rules true).error =
            (execute_rules env rules false).error) := by
  constructor
  · intro s rc hrc
    cases hfj : find_jobs env rules with
    | error e =>
      rw [execute_rules_find_error hfj] at hrc
      exact absurd hrc (by simp)
    | ok jobs =>
      cases jobs with
      | nil =>
        rw [execute_rules_empty hfj] at hrc
        exact absurd hrc (by simp)
      | cons j rest =>
        rw [execute_rules_run hfj (by simp)] at hrc
        exact (execJobs_run_mem env s (j :: rest) 0 rc hrc).1
  · intro hsim
    cases hfj : find_jobs env rules with
    | error e =>
      rw [execute_rules_find_error hfj, execute_rules_find_error hfj]
      exact ⟨rfl, rfl, rfl, rfl⟩
    | ok jobs =>
      cases jobs with
      | nil =>
        rw [execute_rules_empty hfj, execute_rules_empty hfj]
        exact ⟨rfl, rfl, rfl, rfl⟩
      | cons j rest =>
        have hjobs : ∀ job ∈ j :: rest, ∀ a ∈ job.actions, ∀ p b,
            a.run p b true = a.run p b false := by
          intro job hjob a ha p b
          rcases find_jobs_actions_from_rules hfj job hjob with ⟨r, hr, hact⟩
          exact hsim r hr a (hact ▸ ha) p b
        rcases execJobs_simIndep env (j :: rest) 0 hjobs with ⟨g1, g2, g3⟩
        rw [execute_rules_run hfj (by simp), execute_rules_run hfj (by simp)]
        exact ⟨rfl, g1, g2, g3⟩

/-- C6 witness: the sample run records the flag it was invoked with, and
its simulated and real traces agree up to the flag. -/
theorem claim6_witness :
    ((⟨0, 0, "/r/d/a.txt", [("pathA", "/d/a.txt")], true, .ok none⟩ :
        RunRec).simulate = true)
    ∧ ((execute_rules envA [ruleB] true).printedNothing =
          (execute_rules envA [ruleB] false).printedNothing
        ∧ (execute_rules envA [ruleB] true).parseCalls =
            (execute_rules envA [ruleB] false).parseCalls
        ∧ (execute_rules envA [ruleB] true).runCalls.map stripSim =
            (execute_rules envA [ruleB] false).runCalls.map stripSim
        ∧ (execute_rules envA [ruleB] true).error =
            (execute_rules envA [ruleB] false).error) := by
  have hfind : find_jobs envA [ruleB] =
      .ok [⟨"/d/a.txt", ruleB.filters, ruleB.actions⟩] := by
    simp only [find_jobs, show collectJobs envA [ruleB] =
      .ok [⟨"/d/a.txt", ruleB.filters, ruleB.actions⟩] from rfl]
    rw [List.mergeSort_singleton]
  refine ⟨(claim6_simulate_flag envA [ruleB]).1 true _
    (by rw [execute_rules_run hfind (by simp)]; decide), ?_⟩
  refine (claim6_simulate_flag envA [ruleB]).2 ?_
  intro r hr a ha p b
  rw [List.mem_singleton.mp hr] at ha
  have haN : a = actionNoop := by simpa [ruleB] using ha
  rw [haN]
  rfl

/-- C8: when the same path is a matched candidate of two different rules
of the rule list, `find_jobs` produces a job for each of them — each
carrying its own rule's filters and actions — with no deduplication (at
least two jobs hold that path), the whole output is sorted by path, and
an execution that ends without error parses (hence processes) every one
of the sorted jobs, in particular both of them. -/
theorem claim8_no_dedup (env : Env) (s : Bool) (l₁ l₂ l₃ : List Rule)
    (ra rb : Rule) (p : String) (jobs : List Job)
    (hfind : find_jobs env (l₁ ++ ra :: l₂ ++ rb :: l₃) = .ok jobs)
    (ca cb : List String)
    (hca : all_pathes env ra.folders = .ok ca) (hpa : p ∈ ca)
    (hma : ∀ f ∈ ra.filters, f.«matches» p = .ok true)
    (hcb : all_pathes env rb.folders = .ok cb) (hpb : p ∈ cb)
    (hmb : ∀ f ∈ rb.filters, f.«matches» p = .ok true) :
    (⟨p, ra.filters, ra.actions⟩ : Job) ∈ jobs
    ∧ (⟨p, rb.filters, rb.actions⟩ : Job) ∈ jobs
    ∧ 2 ≤ jobs.countP (fun j => j.path == p)
    ∧ jobs.Pairwise (fun a b => jobLe a b = true)
    ∧ ((execute_rules env (l₁ ++ ra :: l₂ ++ rb :: l₃) s).error = none →
        (execute_rules env (l₁ ++ ra :: l₂ ++ rb :: l₃) s).parseCalls.length
          = jobs.length) := by
  rcases find_jobs_ok_iff.mp hfind with ⟨l, hc, hjobs⟩
  rcases collectJobs_append_ok.mp hc with ⟨M, N, hM, hN, rfl⟩
  rcases collectJobs_append_ok.mp hM with ⟨A, Ajs, hA, hAjs, rfl⟩
  rcases collectJobs_cons_ok.mp hAjs with ⟨jsa, C, hra, hC, rfl⟩
  rcases collectJobs_cons_ok.mp hN with ⟨jsb, E, hrb, hE, rfl⟩
  rcases ruleJobs_ok_iff.mp hra with ⟨ca2, hca2, hma2⟩
  rw [hca] at hca2
  obtain rfl := Except.ok.inj hca2
  rcases ruleJobs_ok_iff.mp hrb with ⟨cb2, hcb2, hmb2⟩
  rw [hcb] at hcb2
  obtain rfl := Except.ok.inj hcb2
  have hja : (⟨p, ra.filters, ra.actions⟩ : Job) ∈ jsa :=
    (matchedJobs_ok_mem hma2 _).mpr
      ⟨p, hpa, (allMatches_ok_true_iff _ _).mpr hma, rfl⟩
  have hjb : (⟨p, rb.filters, rb.actions⟩ : Job) ∈ jsb :=
    (matchedJobs_ok_mem hmb2 _).mpr
      ⟨p, hpb, (allMatches_ok_true_iff _ _).mpr hmb, rfl⟩
  have hjaL : (⟨p, ra.filters, ra.actions⟩ : Job) ∈
      (A ++ (jsa ++ C)) ++ (jsb ++ E) :=
    List.mem_append.mpr (Or.inl (List.mem_append.mpr (Or.inr
      (List.mem_append.mpr (Or.inl hja)))))
  have hjbL : (⟨p, rb.filters, rb.actions⟩ : Job) ∈
      (A ++ (jsa ++ C)) ++ (jsb ++ E) :=
    List.mem_append.mpr (Or.inr (List.mem_append.mpr (Or.inl hjb)))
  subst hjobs
  have hmemA : (⟨p, ra.filters, ra.actions⟩ : Job) ∈
      ((A ++ (jsa ++ C)) ++ (jsb ++ E)).mergeSort jobLe :=
    List.mem_mergeSort.mpr hjaL
  have hmemB : (⟨p, rb.filters, rb.actions⟩ : Job) ∈
      ((A ++ (jsa ++ C)) ++ (jsb ++ E)).mergeSort jobLe :=
    List.mem_mergeSort.mpr hjbL
  refine ⟨hmemA, hmemB, ?_, find_jobs_sorted hfind, ?_⟩
  · rw [(List.mergeSort_perm ((A ++ (jsa ++ C)) ++ (jsb ++ E)) jobLe).countP_eq]
    have h1 : 0 < jsa.countP (fun j => j.path == p) :=
      List.countP_pos_iff.mpr ⟨_, hja, by simp⟩
    have h2 : 0 < jsb.countP (fun j => j.path == p) :=
      List.countP_pos_iff.mpr ⟨_, hjb, by simp⟩
    simp only [List.countP_append]
    omega
  · intro herr
    have hne := List.ne_nil_of_mem hmemA
    rw [execute_rules_run hfind hne] at herr ⊢
    exact execJobs_noerr_parse_len env s _ 0 herr

/-- C8 witness: both sample rules match `/d/a.txt`; the sorted output
holds both jobs, each with its own rule's action list, counts the path
twice, and the errorless execution parses both jobs. -/
theorem claim8_witness :
    (⟨"/d/a.txt", ruleA.filters, ruleA.actions⟩ : Job) ∈
      [(⟨"/d/a.txt", ruleA.filters, ruleA.actions⟩ : Job),
       ⟨"/d/a.txt", ruleB.filters, ruleB.actions⟩]
    ∧ (⟨"/d/a.txt", ruleB.filters, ruleB.actions⟩ : Job) ∈
      [(⟨"/d/a.txt", ruleA.filters, ruleA.actions⟩ : Job),
       ⟨"/d/a.txt", ruleB.filters, ruleB.actions⟩]
    ∧ 2 ≤ ([(⟨"/d/a.txt", ruleA.filters, ruleA.actions⟩ : Job),
       ⟨"/d/a.txt", ruleB.filters, ruleB.actions⟩]).countP
        (fun j => j.path == "/d/a.txt")
    ∧ ([(⟨"/d/a.txt", ruleA.filters, ruleA.actions⟩ : Job),
       ⟨"/d/a.txt", ruleB.filters, ruleB.actions⟩]).Pairwise
        (fun a b => jobLe a b = true)
    ∧ (execute_rules envA [ruleA, ruleB] true).parseCalls.length =
        ([(⟨"/d/a.txt", ruleA.filters, ruleA.actions⟩ : Job),
         ⟨"/d/a.txt", ruleB.filters, ruleB.actions⟩]).length := by
  have hfind : find_jobs envA [ruleA, ruleB] =
      .ok [⟨"/d/a.txt", ruleA.filters, ruleA.actions⟩,
           ⟨"/d/a.txt", ruleB.filters, ruleB.actions⟩] := by
    simp only [find_jobs, show collectJobs envA [ruleA, ruleB] =
      .ok [⟨"/d/a.txt", ruleA.filters, ruleA.actions⟩,
           ⟨"/d/a.txt", ruleB.filters, ruleB.actions⟩] from rfl]
    rw [List.mergeSort_of_sorted (by decide)]
  have hmA : ∀ f ∈ ruleA.filters, f.«matches» "/d/a.txt" = .ok true := by
    intro f hf
    rw [show f = filterA by simpa [ruleA] using hf]
    rfl
  have hmB : ∀ f ∈ ruleB.filters, f.«matches» "/d/a.txt" = .ok true := by
    intro f hf
    rw [show f = filterA by simpa [ruleB] using hf]
    rfl
  have h := claim8_no_dedup envA true [] [] [] ruleA ruleB "/d/a.txt" _
    hfind ["/d/a.txt", "/d/b.jpg"] ["/d/a.txt", "/d/b.jpg"]
    rfl (by decide) hmA rfl (by decide) hmB
  exact ⟨h.1, h.2.1, h.2.2.1, h.2.2.2.1, h.2.2.2.2
    (by
      rw [show ([] ++ [ruleA] ++ [ruleB] : List Rule) = [ruleA, ruleB]
        from rfl]
      rw [execute_rules_run hfind (by simp)]
      rfl)⟩

/-- C9: the engine catches nothing — a run call whose result is an error
is the last run call of the whole execution (so the rest of its job's
chain and every later job are never invoked and nothing is rolled back),
the error becomes the execution's outcome; and an error raised during
job discovery (folder enumeration or a filter's `matches`) propagates
with nothing printed and no capability invoked. -/
theorem claim9_error_propagation (env : Env) (rules : List Rule) (s : Bool) :
    (∀ rc ∈ (execute_rules env rules s).runCalls, ∀ e,
        rc.result = .error e →
        (execute_rules env rules s).runCalls.getLast? = some rc
        ∧ (execute_rules env rules s).error = some e
        ∧ ∀ pc ∈ (execute_rules env rules s).parseCalls,
            pc.jobIdx ≤ rc.jobIdx)
    ∧ (∀ e, find_jobs env rules = .error e →
        execute_rules env rules s = ⟨false, [], [], some e⟩) := by
  constructor
  · intro rc hrc e herr
    cases hfj : find_jobs env rules with
    | error e2 =>
      rw [execute_rules_find_error hfj] at hrc
      exact absurd hrc (by simp)
    | ok jobs =>
      cases jobs with
      | nil =>
        rw [execute_rules_empty hfj] at hrc
        exact absurd hrc (by simp)
      | cons j rest =>
        rw [execute_rules_run hfj (by simp)] at hrc ⊢
        exact execJobs_error_last env s (j :: rest) 0 rc e hrc herr
  · intro e hfj
    exact execute_rules_find_error hfj

/-- C9 witness: the failing sample action's run call is the last and only
run call, its error is the outcome, the single parse call is not of a
later job; and a raising directory enumeration propagates with an empty
trace. -/
theorem claim9_witness :
    (execute_rules envA [ruleFail] true).runCalls.getLast? =
      some ⟨0, 0, "/r/d/a.txt", [("pathA", "/d/a.txt")], true,
        .error (.userError 7)⟩
    ∧ (execute_rules envA [ruleFail] true).error = some (.userError 7)
    ∧ (⟨0, 0, "/d/a.txt"⟩ : ParseRec).jobIdx ≤
        (⟨0, 0, "/r/d/a.txt", [("pathA", "/d/a.txt")], true,
          .error (.userError 7)⟩ : RunRec).jobIdx
    ∧ execute_rules envErr [ruleA] true = ⟨false, [], [], some (.userError 3)⟩
    := by
  have hfind : find_jobs envA [ruleFail] =
      .ok [⟨"/d/a.txt", ruleFail.filters, ruleFail.actions⟩] := by
    simp only [find_jobs, show collectJobs envA [ruleFail] =
      .ok [⟨"/d/a.txt", ruleFail.filters, ruleFail.actions⟩] from rfl]
    rw [List.mergeSort_singleton]
  have h := (claim9_error_propagation envA [ruleFail] true).1
    ⟨0, 0, "/r/d/a.txt", [("pathA", "/d/a.txt")], true,
      .error (.userError 7)⟩
    (by rw [execute_rules_run hfind (by simp)]; decide)
    (.userError 7) rfl
  refine ⟨h.1, h.2.1, h.2.2 ⟨0, 0, "/d/a.txt"⟩ ?_, ?_⟩
  · rw [execute_rules_run hfind (by simp)]
    decide
  · exact (claim9_error_propagation envErr [ruleA] true).2 (.userError 3) rfl

end Organize
